import Mathlib

/-!
Verification of the export-map synthesis core of `xportify`
(`src/commands/extract_exports.ts`).

The development shallowly embeds the TypeScript code: the Node `path` /
`fs` / JS string library calls it makes are modelled at the level of
character lists, the file system is an oracle from paths to probe
outcomes, and each source function is translated definition by
definition.  Everything is executable so that concrete runs can be
settled by `decide`.
-/

namespace Xportify

/-! ## JS string operations used by the code (ASCII, character-exact) -/

/-- JS `s.endsWith(t)`: `t.data` is a suffix of `s.data`. -/
def endsW (s t : String) : Bool := decide (t.data <:+ s.data)

/-- Does the path string start with the separator `'/'`?
(embeds `p.startsWith("/")` / POSIX absoluteness as used by `node:path`). -/
def isAbsPath (p : String) : Bool :=
  match p.data with
  | '/' :: _ => true
  | _ => false

/-- Split a character list at every occurrence of `sep` (empty pieces
kept), accumulating the current piece in reverse — JS `split(sep)`. -/
def splitOnChar (sep : Char) : List Char → List Char → List (List Char)
  | [], cur => [cur.reverse]
  | c :: cs, cur =>
    if c = sep then cur.reverse :: splitOnChar sep cs []
    else splitOnChar sep cs (c :: cur)

/-- Rejoin pieces with `sep` between them: left inverse of `splitOnChar`. -/
def joinWithChar (sep : Char) : List (List Char) → List Char
  | [] => []
  | [x] => x
  | x :: xs => x ++ sep :: joinWithChar sep xs

/-- The `'/'`-separated segments of a path string. -/
def pathSegs (p : String) : List String :=
  (splitOnChar '/' p.data []).map String.mk

/-- Join path segments with `'/'` (the string-level `joinWithChar '/'`). -/
def joinSegs : List String → String
  | [] => ""
  | [s] => s
  | s :: ss => s ++ "/" ++ joinSegs ss

/-! ## `node:path` (POSIX flavour), as called by the code

The code resolves its directories to absolute paths before using them, so
`path.relative` is modelled with both arguments resolved against root
(every call site passes absolute paths, and none of the arguments carries
a trailing separator). -/

/-- Core of `path.posix.normalize`: process raw segments left to right,
skipping empty and `"."` segments, resolving `".."` against the
accumulator (for an absolute path a leading `".."` is dropped; for a
relative one it is kept). The accumulator holds processed segments in
reverse. -/
def normSegs (abso : Bool) : List String → List String → List String
  | acc, [] => acc.reverse
  | acc, s :: rest =>
    if s = "" ∨ s = "." then normSegs abso acc rest
    else if s = ".." then
      match acc with
      | [] => if abso then normSegs abso [] rest else normSegs abso [".."] rest
      | t :: acc' =>
        if t = ".." then normSegs abso (".." :: t :: acc') rest
        else normSegs abso acc' rest
    else normSegs abso (s :: acc) rest

/-- Embeds `path.posix.normalize` (trailing separators do not occur at any call
site and are not preserved). -/
def normalizeStr (p : String) : String :=
  if p = "" then "."
  else if isAbsPath p then
    (if normSegs true [] (pathSegs p) = [] then "/"
     else "/" ++ joinSegs (normSegs true [] (pathSegs p)))
  else
    (if normSegs false [] (pathSegs p) = [] then "."
     else joinSegs (normSegs false [] (pathSegs p)))

/-- Embeds `path.posix.join`: drop empty arguments, join with `'/'`, normalize;
`"."` when nothing remains. -/
def path_join (parts : List String) : String :=
  if parts.filter (fun s => s ≠ "") = [] then "."
  else normalizeStr (joinSegs (parts.filter (fun s => s ≠ "")))

/-- Segments of a path once resolved against the root (arguments of
`path.relative` are absolute at every call site; a relative one would be
resolved against the process directory, modelled as `"/"`). -/
def absSegsOf (p : String) : List String :=
  normSegs true [] (pathSegs (if isAbsPath p then p else "/" ++ p))

/-- Drop the common leading segments of two segment lists. -/
def dropCommon : List String → List String → List String × List String
  | [], bs => ([], bs)
  | a :: as, [] => (a :: as, [])
  | a :: as, b :: bs =>
    if a = b then dropCommon as bs else (a :: as, b :: bs)

/-- Embeds `path.posix.relative`: resolve both paths, drop the common leading
segments, climb with `".."` for what remains of `fromP` and descend into
what remains of `toP`. -/
def path_relative (fromP toP : String) : String :=
  let rest := dropCommon (absSegsOf fromP) (absSegsOf toP)
  joinSegs (rest.1.map (fun _ => "..") ++ rest.2)

/-- Embeds `path.posix.dirname` (for the separator-clean relative paths the glob
collaborator supplies): all segments but the last, `"."` when there is
only one. -/
def path_dirname (p : String) : String :=
  match (pathSegs p).dropLast with
  | [] => "."
  | l => joinSegs l

/-- The last `'/'`-separated segment of a path. -/
def lastSegOf (p : String) : String := (pathSegs p).getLastD ""

/-- Embeds `path.posix.extname`: the part of the last segment from its last dot
on; empty when the segment has no dot or its only dot is its first
character. -/
def path_extname (p : String) : String :=
  match splitOnChar '.' (lastSegOf p).data [] with
  | [] => ""
  | [_] => ""
  | x :: y :: rest =>
    if x = [] ∧ rest = [] then ""
    else "." ++ String.mk ((x :: y :: rest).getLastD [])

/-- Embeds `path.posix.basename(p, ext)`: the last segment, with `ext` removed
when it is a proper suffix of it. -/
def path_basename (p ext : String) : String :=
  let b := lastSegOf p
  if b ≠ ext ∧ ext.data <:+ b.data then
    String.mk (b.data.take (b.data.length - ext.data.length))
  else b

/-! ## The file system, and `fs.existsSync` -/

/-- Outcome of probing the file system at one path: the path exists, it
does not exist, or the check itself fails (e.g. permission denied). -/
inductive FsOutcome
  | found
  | absent
  | failed
deriving DecidableEq

/-- The ambient file system: an oracle from paths to probe outcomes. -/
abbrev FileSystem := String → FsOutcome

/-- Embeds `fs.existsSync`: `true` exactly when the path exists. A failing
check is swallowed and reported as `false` — `existsSync` never throws,
so a failure is indistinguishable from absence. -/
def existsSync (fsys : FileSystem) (p : String) : Bool :=
  match fsys p with
  | .found => true
  | _ => false

/-! ## The synthesis core (`src/commands/extract_exports.ts`) -/

/-- An entry of the generated `exports` object: `types` and `import`
(here `imp`: `import` is reserved in Lean) are written by the module
pass, `style` by the stylesheet pass. -/
structure ExportEntry where
  types : Option String
  imp : Option String
  style : Option String
deriving DecidableEq

/-- The `exports` object, as a key-ordered association list (JS objects
with non-numeric keys enumerate in insertion order). -/
abbrev ExportMap := List (String × ExportEntry)

/-- JS object read `m[k]`. -/
def objGet (m : ExportMap) (k : String) : Option ExportEntry :=
  match m.find? (fun kv => kv.1 == k) with
  | some kv => some kv.2
  | none => none

/-- JS object write `m[k] = v`: updates in place when the key is present
(keeping its position), otherwise appends. -/
def objSet (m : ExportMap) (k : String) (v : ExportEntry) : ExportMap :=
  if m.any (fun kv => kv.1 == k) then
    m.map (fun kv => if kv.1 == k then (k, v) else kv)
  else m ++ [(k, v)]

/-- Source `is_index_file`: root `index.ts(x)` or any path ending in
`/index.ts(x)`. -/
def is_index_file (file_path : String) : Bool :=
  file_path == "index.ts" || file_path == "index.tsx" ||
    endsW file_path "/index.ts" || endsW file_path "/index.tsx"

/-- Source `should_export_file`: nothing without output; index files always;
other files only when the compiled `.js` exists. -/
def should_export_file (has_import has_types : Bool) (file_path : String) : Bool :=
  let has_any_output := has_import || has_types
  if !has_any_output then false
  else if is_index_file file_path then true
  else has_import

/-- Source `generate_export_path`: `"."` for the root index, the directory for a
nested index, directory plus extension-free base name otherwise. -/
def generate_export_path (file_path : String) : String :=
  if file_path == "index.ts" || file_path == "index.tsx" then "."
  else if endsW file_path "/index.ts" || endsW file_path "/index.tsx" then
    "./" ++ path_dirname file_path
  else
    let directory := path_dirname file_path
    let base_name := path_basename file_path (path_extname file_path)
    if directory == "." then "./" ++ base_name
    else "./" ++ directory ++ "/" ++ base_name

/-- Source `find_compiled_js_file`: probe the output tree at the mirrored
directory for the extension-free base name plus `.js`; when present,
return it relative to the parent of the output root. -/
def find_compiled_js_file (fsys : FileSystem)
    (source_file_path destination_path : String) : Option String :=
  let base_name := path_basename source_file_path (path_extname source_file_path)
  let directory := path_dirname source_file_path
  let compiled_file_path := path_join [destination_path, directory, base_name ++ ".js"]
  if !existsSync fsys compiled_file_path then none
  else some ("./" ++ path_relative (path_join [destination_path, ".."]) compiled_file_path)

/-- Source `find_compiled_types_file`: as `find_compiled_js_file`, for `.d.ts`. -/
def find_compiled_types_file (fsys : FileSystem)
    (source_file_path destination_path : String) : Option String :=
  let base_name := path_basename source_file_path (path_extname source_file_path)
  let directory := path_dirname source_file_path
  let compiled_types_path := path_join [destination_path, directory, base_name ++ ".d.ts"]
  if !existsSync fsys compiled_types_path then none
  else some ("./" ++ path_relative (path_join [destination_path, ".."]) compiled_types_path)

/-- Source `process_typescript_file`: resolve both artifacts, gate on
`should_export_file`, and build the entry (`types` first, then `import`,
each kept even when absent). -/
def process_typescript_file (fsys : FileSystem)
    (file_path destination_path : String) : Option (String × ExportEntry) :=
  let import_path := find_compiled_js_file fsys file_path destination_path
  let types_path := find_compiled_types_file fsys file_path destination_path
  let has_import := import_path.isSome
  let has_types := types_path.isSome
  if !should_export_file has_import has_types file_path then none
  else some (generate_export_path file_path,
    { types := types_path, imp := import_path, style := none })

/-- Source `process_css_file`: the key keeps the `.css` extension; the recorded
style path is the artifact relative to the parent of the output root.
No probe is made: the css list is taken as is. -/
def process_css_file (file_path destination_path : String) :
    Option (String × ExportEntry) :=
  let style_path := "./" ++
    path_relative (path_join [destination_path, ".."]) (path_join [destination_path, file_path])
  let export_path := if file_path == "index.css" then "./index.css" else "./" ++ file_path
  some (export_path, { types := none, imp := none, style := some style_path })

/-- The regex replace `export_path.replace(/\.css$/, "")`. -/
def strip_css_suffix (s : String) : String :=
  if endsW s ".css" then String.mk (s.data.take (s.data.length - 4)) else s

/-- One iteration of the module loop of `generate_exports_object`:
only `.ts` / `.tsx` paths are processed; a produced entry is written at
its export path. -/
def ts_fold_step (fsys : FileSystem) (destination_path : String)
    (ex : ExportMap) (file_path : String) : ExportMap :=
  let is_typescript := endsW file_path ".ts" || endsW file_path ".tsx"
  if is_typescript then
    match process_typescript_file fsys file_path destination_path with
    | some r => objSet ex r.1 r.2
    | none => ex
  else ex

/-- One iteration of the css loop of `generate_exports_object`: when an
entry already exists at the key minus `.css`, spread the style field into
it (`{...old, ...entry}` with `entry` carrying only `style`); otherwise
write a standalone entry. -/
def css_fold_step (destination_path : String)
    (ex : ExportMap) (css_path : String) : ExportMap :=
  match process_css_file css_path destination_path with
  | some r =>
    let base_export_path := strip_css_suffix r.1
    match objGet ex base_export_path with
    | some existing => objSet ex base_export_path { existing with style := r.2.style }
    | none => objSet ex r.1 r.2
  | none => ex

/-- Source `generate_exports_object`: the module paths in input order, then the
css paths in input order. -/
def generate_exports_object (fsys : FileSystem)
    (source_file_paths css_file_paths : List String)
    (destination_path : String) : ExportMap :=
  css_file_paths.foldl (css_fold_step destination_path)
    (source_file_paths.foldl (ts_fold_step fsys destination_path) [])

/-! ## Well-formed paths

The file-enumeration collaborator (`fast-glob` with `absolute: false`)
yields clean relative paths: nonempty `'/'`-separated segments, none of
them `"."` or `".."`.  The validated output directory is an absolute
path of the same segment shape. -/

/-- A clean path segment: nonempty, not a dot link, separator-free. -/
def ValidSeg (s : String) : Bool :=
  decide (s ≠ "" ∧ s ≠ "." ∧ s ≠ ".." ∧ '/' ∉ s.data)

/-- All segments clean. -/
def ValidSegs (l : List String) : Bool := l.all ValidSeg

/-- The absolute path with the given segments (`"/"` for none). -/
def mkAbs (E : List String) : String :=
  if E = [] then "/" else "/" ++ joinSegs E

/-- A raw segment survives normalization iff it is neither empty nor `"."`
(granted no `".."` is around). -/
def keepSeg (s : String) : Bool := decide (¬ (s = "" ∨ s = "."))

/-- The output-tree location probed by `find_compiled_js_file`. -/
def js_probe_path (fp dest : String) : String :=
  path_join [dest, path_dirname fp, path_basename fp (path_extname fp) ++ ".js"]

/-- The output-tree location probed by `find_compiled_types_file`. -/
def dts_probe_path (fp dest : String) : String :=
  path_join [dest, path_dirname fp, path_basename fp (path_extname fp) ++ ".d.ts"]

/-- Existence probe of a public path (one expressed relative to the parent
of the output root), resolved back against that parent. -/
def probe_public (fsys : FileSystem) (destination_path public_path : String) : Bool :=
  existsSync fsys (path_join [path_join [destination_path, ".."], public_path])

/-- The public paths recorded in one entry. -/
def entry_paths (e : ExportEntry) : List String :=
  e.imp.toList ++ e.types.toList ++ e.style.toList

/-- Do all paths recorded in the map probe as existing? -/
def round_trip_check (fsys : FileSystem) (destination_path : String)
    (m : ExportMap) : Bool :=
  m.all (fun kv => (entry_paths kv.2).all (fun p => probe_public fsys destination_path p))

/-- All recorded paths of one entry probe as existing. -/
def EntryOK (fsys : FileSystem) (destination_path : String) (e : ExportEntry) : Prop :=
  ∀ p ∈ entry_paths e, probe_public fsys destination_path p = true

/-- All recorded paths of the map probe as existing. -/
def MapOK (fsys : FileSystem) (destination_path : String) (m : ExportMap) : Prop :=
  ∀ kv ∈ m, EntryOK fsys destination_path kv.2

/-- Modelled from the spec (§4.1 Path Classifier): rule 1 — exactly
`index.<ext>` is the root index, subpath `"."`; rule 2 — a path ending in
`/index.<ext>` is a directory index, subpath `"./" + directory`; rule 3 —
otherwise `"./" + directory + "/" + basename-without-extension`, with the
leading `"./."` collapsed for root-level files. `is_index` holds in rules
1 and 2 only. -/
def classify_spec (module_path : String) : Bool × String :=
  if module_path == "index.ts" || module_path == "index.tsx" then (true, ".")
  else if endsW module_path "/index.ts" || endsW module_path "/index.tsx" then
    (true, "./" ++ path_dirname module_path)
  else
    (false,
      if path_dirname module_path == "." then
        "./" ++ path_basename module_path (path_extname module_path)
      else
        "./" ++ path_dirname module_path ++ "/" ++
          path_basename module_path (path_extname module_path))

/-! ### Concrete file-system fixtures for the claim instances -/

/-- Both artifacts of module `a.ts` compiled. -/
def fsBoth : FileSystem := fun p =>
  if p = "/pkg/dist/a.js" ∨ p = "/pkg/dist/a.d.ts" then .found else .absent

/-- Only the runtime artifact of `a.ts` compiled. -/
def fsJsOnly : FileSystem := fun p =>
  if p = "/pkg/dist/a.js" then .found else .absent

/-- Only the type-declaration artifact of `a.ts` compiled. -/
def fsDtsOnly : FileSystem := fun p =>
  if p = "/pkg/dist/a.d.ts" then .found else .absent

/-- An empty output tree. -/
def fsNone : FileSystem := fun _ => .absent

/-- Every probe fails (e.g. permission denied everywhere). -/
def fsAllFail : FileSystem := fun _ => .failed

/-- Pointwise the same file system as `fsNone`, written differently. -/
def fsNone2 : FileSystem := fun p => if p = p then .absent else .found

/-- Root index and a stylesheet compiled under `/pkg/dist`. -/
def fsDemo : FileSystem := fun p =>
  if p = "/pkg/dist/index.js" ∨ p = "/pkg/dist/index.d.ts" ∨ p = "/pkg/dist/style.css"
  then .found else .absent

/-- Output tree for the declaration-file gate instance. -/
def fsDtsHelper : FileSystem := fun p =>
  if p = "/pkg/dist/utils/helper.d.js" then .found else .absent

/-- Output tree where `a.ts` has both artifacts and `a/index.ts` only its
type declaration. -/
def fsReplaceDemo : FileSystem := fun p =>
  if p = "/pkg/dist/a.js" ∨ p = "/pkg/dist/a.d.ts" ∨ p = "/pkg/dist/a/index.d.ts"
  then .found else .absent

/-! ## Splitting and joining -/

theorem splitOnChar_ne_nil (sep : Char) (cs cur : List Char) :
    splitOnChar sep cs cur ≠ [] := by
  induction cs generalizing cur with
  | nil => simp [splitOnChar]
  | cons c cs ih =>
    simp only [splitOnChar]
    split
    · simp
    · exact ih _

theorem splitOnChar_no_sep (sep : Char) (cs cur : List Char) (h : sep ∉ cs) :
    splitOnChar sep cs cur = [cur.reverse ++ cs] := by
  induction cs generalizing cur with
  | nil => simp [splitOnChar]
  | cons c cs ih =>
    simp only [splitOnChar]
    have hc : ¬ c = sep := fun hh => h (hh ▸ List.mem_cons_self c cs)
    rw [if_neg hc, ih _ (fun hm => h (List.mem_cons_of_mem c hm))]
    simp

theorem splitOnChar_append (sep : Char) (A B cur : List Char) :
    splitOnChar sep (A ++ sep :: B) cur =
      splitOnChar sep A cur ++ splitOnChar sep B [] := by
  induction A generalizing cur with
  | nil => simp [splitOnChar]
  | cons c A ih =>
    simp only [List.cons_append, splitOnChar]
    split
    · simp [ih]
    · exact ih _

theorem joinWithChar_cons_of_ne_nil (sep : Char) (x : List Char)
    (xs : List (List Char)) (h : xs ≠ []) :
    joinWithChar sep (x :: xs) = x ++ sep :: joinWithChar sep xs := by
  cases xs with
  | nil => exact absurd rfl h
  | cons y ys => rfl

theorem joinSegs_cons_of_ne_nil (s : String) (ss : List String) (h : ss ≠ []) :
    joinSegs (s :: ss) = s ++ "/" ++ joinSegs ss := by
  cases ss with
  | nil => exact absurd rfl h
  | cons y ys => rfl

theorem joinWithChar_splitOnChar (sep : Char) (cs cur : List Char) :
    joinWithChar sep (splitOnChar sep cs cur) = cur.reverse ++ cs := by
  induction cs generalizing cur with
  | nil => simp [splitOnChar, joinWithChar]
  | cons c cs ih =>
    simp only [splitOnChar]
    split
    · rename_i hc
      have hne := splitOnChar_ne_nil sep cs ([] : List Char)
      rw [joinWithChar_cons_of_ne_nil _ _ _ hne, ih, hc]
      simp
    · rw [ih]
      simp

theorem data_of_append (a b : String) : (a ++ b).data = a.data ++ b.data :=
  String.data_append a b

theorem joinSegs_data (l : List String) :
    (joinSegs l).data = joinWithChar '/' (l.map String.data) := by
  induction l with
  | nil => rfl
  | cons s ss ih =>
    cases ss with
    | nil => rfl
    | cons y ys =>
      rw [joinSegs_cons_of_ne_nil s (y :: ys) (by simp)]
      simp only [List.map_cons]
      rw [joinWithChar_cons_of_ne_nil '/' s.data (y.data :: ys.map String.data) (by simp)]
      simp only [data_of_append, ih, List.map_cons]
      simp

theorem pathSegs_ne_nil (p : String) : pathSegs p ≠ [] := by
  unfold pathSegs
  intro h
  exact splitOnChar_ne_nil '/' p.data [] (by simpa using h)

theorem joinSegs_pathSegs (p : String) : joinSegs (pathSegs p) = p := by
  apply String.ext
  rw [joinSegs_data]
  unfold pathSegs
  rw [List.map_map]
  have : (String.data ∘ String.mk) = id := rfl
  rw [this, List.map_id, joinWithChar_splitOnChar]
  rfl

theorem pathSegs_single (s : String) (h : '/' ∉ s.data) : pathSegs s = [s] := by
  unfold pathSegs
  rw [splitOnChar_no_sep '/' s.data [] h]
  rfl

theorem pathSegs_append (a b : String) :
    pathSegs (a ++ "/" ++ b) = pathSegs a ++ pathSegs b := by
  unfold pathSegs
  have : (a ++ "/" ++ b).data = a.data ++ '/' :: b.data := by
    rw [data_of_append, data_of_append]
    simp
  rw [this, splitOnChar_append, List.map_append]

theorem pathSegs_slash (b : String) : pathSegs ("/" ++ b) = "" :: pathSegs b := by
  unfold pathSegs
  have : (("/" : String) ++ b).data = '/' :: b.data := by
    rw [data_of_append]; rfl
  rw [this]
  show ((splitOnChar '/' ('/' :: b.data) [])).map String.mk = _
  simp [splitOnChar]

theorem pathSegs_joinSegs (l : List String) (h : ∀ s ∈ l, '/' ∉ s.data)
    (hne : l ≠ []) : pathSegs (joinSegs l) = l := by
  induction l with
  | nil => exact absurd rfl hne
  | cons s ss ih =>
    cases ss with
    | nil => exact pathSegs_single s (h s (by simp))
    | cons y ys =>
      rw [joinSegs_cons_of_ne_nil s (y :: ys) (by simp), pathSegs_append,
        pathSegs_single s (h s (by simp)),
        ih (fun t ht => h t (List.mem_cons_of_mem s ht)) (by simp)]
      rfl

/-! ## Segment validity -/

theorem ValidSeg_iff (s : String) :
    ValidSeg s = true ↔ s ≠ "" ∧ s ≠ "." ∧ s ≠ ".." ∧ '/' ∉ s.data := by
  simp [ValidSeg]

theorem ValidSegs_iff (l : List String) :
    ValidSegs l = true ↔ ∀ s ∈ l, ValidSeg s = true := by
  simp [ValidSegs, List.all_eq_true]

theorem ValidSeg_no_slash {s : String} (h : ValidSeg s = true) : '/' ∉ s.data :=
  ((ValidSeg_iff s).mp h).2.2.2

/-! ## Normalization -/

theorem normSegs_nil (abso : Bool) (acc : List String) :
    normSegs abso acc [] = acc.reverse := rfl

theorem normSegs_cons_skip (abso : Bool) (acc : List String) (s : String)
    (rest : List String) (h : s = "" ∨ s = ".") :
    normSegs abso acc (s :: rest) = normSegs abso acc rest := by
  simp only [normSegs]
  rw [if_pos h]

theorem normSegs_cons_valid (abso : Bool) (acc : List String) (s : String)
    (rest : List String) (h1 : s ≠ "") (h2 : s ≠ ".") (h3 : s ≠ "..") :
    normSegs abso acc (s :: rest) = normSegs abso (s :: acc) rest := by
  simp only [normSegs]
  rw [if_neg (by simp [h1, h2]), if_neg h3]

theorem normSegs_cons_up (abso : Bool) (acc' : List String) (t : String)
    (rest : List String) (h3 : t ≠ "..") :
    normSegs abso (t :: acc') (".." :: rest) = normSegs abso acc' rest := by
  simp only [normSegs]
  simp [h3]

theorem normSegs_clean (abso : Bool) (l : List String) (rest : List String)
    (acc : List String) (h : ∀ s ∈ l, s = "" ∨ s = "." ∨ ValidSeg s = true) :
    normSegs abso acc (l ++ rest) =
      normSegs abso ((l.filter keepSeg).reverse ++ acc) rest := by
  induction l generalizing acc with
  | nil => simp
  | cons s l ih =>
    have hl : ∀ t ∈ l, t = "" ∨ t = "." ∨ ValidSeg t = true :=
      fun t ht => h t (List.mem_cons_of_mem s ht)
    rw [List.cons_append]
    rcases h s (by simp) with hs | hs | hs
    · rw [normSegs_cons_skip abso acc s _ (Or.inl hs), ih _ hl]
      have : keepSeg s = false := by simp [keepSeg, hs]
      simp [List.filter_cons, this]
    · rw [normSegs_cons_skip abso acc s _ (Or.inr hs), ih _ hl]
      have : keepSeg s = false := by simp [keepSeg, hs]
      simp [List.filter_cons, this]
    · obtain ⟨h1, h2, h3, _⟩ := (ValidSeg_iff s).mp hs
      rw [normSegs_cons_valid abso acc s _ h1 h2 h3, ih _ hl]
      have hkeep : keepSeg s = true := by simp [keepSeg, h1, h2]
      simp [hkeep, List.filter_cons, List.append_assoc]

theorem filter_keep_of_valid (l : List String)
    (h : ∀ s ∈ l, ValidSeg s = true) : l.filter keepSeg = l := by
  rw [List.filter_eq_self]
  intro s hs
  obtain ⟨h1, h2, _, _⟩ := (ValidSeg_iff s).mp (h s hs)
  simp [keepSeg, h1, h2]

theorem normSegs_valid (abso : Bool) (E : List String)
    (h : ∀ s ∈ E, ValidSeg s = true) : normSegs abso [] E = E := by
  have hc := normSegs_clean abso E [] []
    (fun s hs => Or.inr (Or.inr (h s hs)))
  rw [List.append_nil] at hc
  rw [hc, normSegs_nil, filter_keep_of_valid E h]
  simp

theorem normSegs_valid_up (E : List String)
    (h : ∀ s ∈ E, ValidSeg s = true) (hne : E ≠ []) :
    normSegs true [] (E ++ [".."]) = E.dropLast := by
  rw [normSegs_clean true E [".."] [] (fun s hs => Or.inr (Or.inr (h s hs))),
    filter_keep_of_valid E h]
  obtain ⟨E', t, hE⟩ := (List.eq_nil_or_concat E).resolve_left hne
  rw [List.concat_eq_append] at hE
  subst hE
  have ht : ValidSeg t = true := h t (by simp)
  obtain ⟨_, _, h3, _⟩ := (ValidSeg_iff t).mp ht
  have hrev : (E' ++ [t]).reverse = t :: E'.reverse := by simp
  rw [hrev, List.append_nil, normSegs_cons_up true E'.reverse t [] h3,
    normSegs_nil]
  simp

theorem normSegs_blank (abso : Bool) (acc : List String) (X : List String) :
    normSegs abso acc ("" :: X) = normSegs abso acc X := by
  simp [normSegs]

/-! ## Absoluteness -/

theorem isAbsPath_iff (p : String) :
    isAbsPath p = true ↔ ∃ cs, p.data = '/' :: cs := by
  unfold isAbsPath
  split
  · rename_i cs heq
    simp [heq]
  · rename_i hno
    constructor
    · intro h; cases h
    · rintro ⟨cs, hcs⟩
      exact absurd hcs (hno cs)

theorem isAbsPath_slash_append (x : String) : isAbsPath ("/" ++ x) = true := by
  rw [isAbsPath_iff]
  refine ⟨x.data, ?_⟩
  rw [data_of_append]
  rfl

theorem isAbsPath_append (a x : String) (h : isAbsPath a = true) :
    isAbsPath (a ++ x) = true := by
  rw [isAbsPath_iff] at h ⊢
  obtain ⟨cs, hcs⟩ := h
  exact ⟨cs ++ x.data, by rw [data_of_append, hcs]; rfl⟩

theorem isAbsPath_mkAbs (E : List String) : isAbsPath (mkAbs E) = true := by
  unfold mkAbs
  split
  · rfl
  · exact isAbsPath_slash_append _

theorem mkAbs_ne_empty (E : List String) : mkAbs E ≠ "" := by
  intro h
  have := isAbsPath_mkAbs E
  rw [h] at this
  cases this

/-! ## Evaluation of the path functions on well-formed input -/

theorem normalizeStr_abs (p : String) (h : isAbsPath p = true) :
    normalizeStr p = mkAbs (normSegs true [] (pathSegs p)) := by
  have hne : p ≠ "" := by
    intro he
    rw [he] at h
    cases h
  unfold normalizeStr mkAbs
  rw [if_neg hne, if_pos h]

theorem absSegsOf_mkAbs (E : List String)
    (h : ∀ s ∈ E, ValidSeg s = true) : absSegsOf (mkAbs E) = E := by
  unfold absSegsOf
  rw [if_pos (isAbsPath_mkAbs E)]
  by_cases hE : E = []
  · subst hE
    rfl
  · unfold mkAbs
    rw [if_neg hE, pathSegs_slash,
      pathSegs_joinSegs E (fun s hs => ValidSeg_no_slash (h s hs)) hE,
      normSegs_blank, normSegs_valid true E h]

theorem path_join_eval (dest : String) (rest : List String)
    (habs : isAbsPath dest = true) (hrest : ∀ s ∈ rest, s ≠ "") :
    path_join (dest :: rest) =
      mkAbs (normSegs true [] (pathSegs (joinSegs (dest :: rest)))) := by
  have hd : dest ≠ "" := by
    intro he
    rw [he] at habs
    cases habs
  have hfilter : (dest :: rest).filter (fun s => s ≠ "") = dest :: rest := by
    rw [List.filter_eq_self]
    intro s hs
    rcases List.mem_cons.mp hs with h | h
    · subst h; simp [hd]
    · simp [hrest s h]
  have habs2 : isAbsPath (joinSegs (dest :: rest)) = true := by
    cases rest with
    | nil => exact habs
    | cons y ys =>
      rw [joinSegs_cons_of_ne_nil dest (y :: ys) (by simp)]
      exact isAbsPath_append _ _ (isAbsPath_append _ _ habs)
  unfold path_join
  rw [hfilter, if_neg (by simp), normalizeStr_abs _ habs2]

theorem normSegs_mixed (l : List String)
    (h : ∀ s ∈ l, s = "" ∨ s = "." ∨ ValidSeg s = true) :
    normSegs true [] l = l.filter keepSeg := by
  have hc := normSegs_clean true l [] [] h
  rw [List.append_nil] at hc
  rw [hc, normSegs_nil]
  simp

theorem pathSegs_joinSegs_general (l : List String) (hne : l ≠ []) :
    pathSegs (joinSegs l) = (l.map pathSegs).flatten := by
  induction l with
  | nil => exact absurd rfl hne
  | cons s ss ih =>
    cases ss with
    | nil => simp [joinSegs]
    | cons y ys =>
      rw [joinSegs_cons_of_ne_nil s (y :: ys) (by simp), pathSegs_append,
        ih (by simp)]
      simp

theorem path_join_abs_parts (dest : String) (rest : List String)
    (habs : isAbsPath dest = true) (hrest : ∀ s ∈ rest, s ≠ "") :
    path_join (dest :: rest) =
      mkAbs (normSegs true [] (pathSegs dest ++ (rest.map pathSegs).flatten)) := by
  rw [path_join_eval dest rest habs hrest,
    pathSegs_joinSegs_general (dest :: rest) (by simp)]
  simp

theorem pathSegs_mkAbs (P : List String) (hP : ∀ s ∈ P, ValidSeg s = true) :
    pathSegs (mkAbs P) = "" :: (if P = [] then [""] else P) := by
  unfold mkAbs
  by_cases hP0 : P = []
  · subst hP0
    rfl
  · rw [if_neg hP0, if_neg hP0, pathSegs_slash,
      pathSegs_joinSegs P (fun s hs => ValidSeg_no_slash (hP s hs)) hP0]

theorem pathSegs_dotslash (rel : String) :
    pathSegs ("./" ++ rel) = "." :: pathSegs rel := by
  unfold pathSegs
  have hdata : (("./" : String) ++ rel).data = '.' :: '/' :: rel.data := by
    rw [data_of_append]
    rfl
  rw [hdata]
  show ((splitOnChar '/' ('.' :: '/' :: rel.data) [])).map String.mk = _
  simp [splitOnChar]

theorem joinSegs_valid_ne_empty (M : List String)
    (hM : ∀ s ∈ M, ValidSeg s = true) (hMne : M ≠ []) : joinSegs M ≠ "" := by
  intro h
  have hsegs := pathSegs_joinSegs M (fun s hs => ValidSeg_no_slash (hM s hs)) hMne
  rw [h] at hsegs
  have hps : pathSegs "" = [""] := rfl
  rw [hps] at hsegs
  have hmem : ("" : String) ∈ M := hsegs ▸ List.mem_singleton.mpr rfl
  exact ((ValidSeg_iff "").mp (hM "" hmem)).1 rfl

/-! ## Target and parent paths of the resolver -/

theorem target_eval (D : List String) (c : String)
    (hD : ∀ s ∈ D, ValidSeg s = true) (hDne : D ≠ [])
    (hc : ∀ s ∈ pathSegs c, ValidSeg s = true) :
    path_join [mkAbs D, c] = mkAbs (D ++ pathSegs c) := by
  have hcne : c ≠ "" := by
    intro h
    subst h
    have hps : ("" : String) ∈ pathSegs "" := by
      rw [show pathSegs "" = [""] from rfl]
      exact List.mem_singleton.mpr rfl
    exact ((ValidSeg_iff "").mp (hc "" hps)).1 rfl
  rw [path_join_abs_parts (mkAbs D) [c] (isAbsPath_mkAbs D) (by simpa using hcne),
    pathSegs_mkAbs D hD, if_neg hDne]
  rw [show ("" :: D) ++ ([c].map pathSegs).flatten = "" :: (D ++ pathSegs c) by
    simp]
  rw [normSegs_mixed ("" :: (D ++ pathSegs c)) (by
    intro s hs
    rcases List.mem_cons.mp hs with hs | hs
    · exact Or.inl hs
    · rcases List.mem_append.mp hs with hs | hs
      · exact Or.inr (Or.inr (hD s hs))
      · exact Or.inr (Or.inr (hc s hs)))]
  have h1 : keepSeg "" = false := by simp [keepSeg]
  rw [List.filter_cons, h1]
  simp only [Bool.false_eq_true, if_false, List.filter_append]
  rw [filter_keep_of_valid D hD, filter_keep_of_valid (pathSegs c) hc]

theorem parent_eval (D : List String)
    (hD : ∀ s ∈ D, ValidSeg s = true) (hDne : D ≠ []) :
    path_join [mkAbs D, ".."] = mkAbs D.dropLast := by
  rw [path_join_abs_parts (mkAbs D) [".."] (isAbsPath_mkAbs D) (by simp),
    pathSegs_mkAbs D hD, if_neg hDne]
  rw [show ([".."].map pathSegs).flatten = [".."] by rfl]
  rw [List.cons_append, normSegs_blank, normSegs_valid_up D hD hDne]

theorem join3_dot (D : List String) (nm : String)
    (hD : ∀ s ∈ D, ValidSeg s = true) (hDne : D ≠ [])
    (hnm : ValidSeg nm = true) :
    path_join [mkAbs D, ".", nm] = mkAbs (D ++ [nm]) := by
  have hnm' := (ValidSeg_iff nm).mp hnm
  rw [path_join_abs_parts (mkAbs D) [".", nm] (isAbsPath_mkAbs D)
      (by simp [hnm'.1]),
    pathSegs_mkAbs D hD, if_neg hDne]
  rw [show (([".", nm]).map pathSegs).flatten = ["."] ++ pathSegs nm by
    simp [show pathSegs "." = ["."] from rfl]]
  rw [pathSegs_single nm hnm'.2.2.2]
  rw [show ("" :: D) ++ (["."] ++ [nm]) = "" :: (D ++ ("." :: [nm])) by simp]
  rw [normSegs_mixed ("" :: (D ++ ("." :: [nm]))) (by
    intro s hs
    rcases List.mem_cons.mp hs with hs | hs
    · exact Or.inl hs
    · rcases List.mem_append.mp hs with hs | hs
      · exact Or.inr (Or.inr (hD s hs))
      · rcases List.mem_cons.mp hs with hs | hs
        · exact Or.inr (Or.inl hs)
        · exact Or.inr (Or.inr ((List.mem_singleton.mp hs) ▸ hnm)))]
  have h1 : keepSeg "" = false := by simp [keepSeg]
  have h2 : keepSeg "." = false := by simp [keepSeg]
  have h3 : keepSeg nm = true := by
    simp [keepSeg, hnm'.1, hnm'.2.1]
  rw [List.filter_cons, h1]
  simp only [Bool.false_eq_true, if_false, List.filter_append]
  rw [filter_keep_of_valid D hD]
  simp [List.filter_cons, h2, h3]

theorem join3_dir (D M : List String) (nm : String)
    (hD : ∀ s ∈ D, ValidSeg s = true) (hDne : D ≠ [])
    (hM : ∀ s ∈ M, ValidSeg s = true) (hMne : M ≠ [])
    (hnm : ValidSeg nm = true) :
    path_join [mkAbs D, joinSegs M, nm] = mkAbs (D ++ M ++ [nm]) := by
  have hnm' := (ValidSeg_iff nm).mp hnm
  rw [path_join_abs_parts (mkAbs D) [joinSegs M, nm] (isAbsPath_mkAbs D)
      (by
        intro s hs
        rcases List.mem_cons.mp hs with hs | hs
        · exact hs ▸ joinSegs_valid_ne_empty M hM hMne
        · exact (List.mem_singleton.mp hs) ▸ hnm'.1),
    pathSegs_mkAbs D hD, if_neg hDne]
  rw [show (([joinSegs M, nm]).map pathSegs).flatten
      = pathSegs (joinSegs M) ++ pathSegs nm by simp]
  rw [pathSegs_joinSegs M (fun s hs => ValidSeg_no_slash (hM s hs)) hMne,
    pathSegs_single nm hnm'.2.2.2]
  rw [show ("" :: D) ++ (M ++ [nm]) = "" :: (D ++ (M ++ [nm])) by simp]
  rw [normSegs_mixed ("" :: (D ++ (M ++ [nm]))) (by
    intro s hs
    rcases List.mem_cons.mp hs with hs | hs
    · exact Or.inl hs
    · rcases List.mem_append.mp hs with hs | hs
      · exact Or.inr (Or.inr (hD s hs))
      · rcases List.mem_append.mp hs with hs | hs
        · exact Or.inr (Or.inr (hM s hs))
        · exact Or.inr (Or.inr ((List.mem_singleton.mp hs) ▸ hnm)))]
  have h1 : keepSeg "" = false := by simp [keepSeg]
  have h3 : keepSeg nm = true := by
    simp [keepSeg, hnm'.1, hnm'.2.1]
  rw [List.filter_cons, h1]
  simp only [Bool.false_eq_true, if_false, List.filter_append]
  rw [filter_keep_of_valid D hD, filter_keep_of_valid M hM]
  simp [List.filter_cons, h3, List.append_assoc]

theorem dropCommon_self_append (P Q : List String) :
    dropCommon P (P ++ Q) = ([], Q) := by
  induction P with
  | nil => rfl
  | cons a P ih =>
    rw [List.cons_append]
    simp only [dropCommon, if_pos rfl]
    exact ih

theorem path_relative_eval (P Q : List String)
    (hP : ∀ s ∈ P, ValidSeg s = true)
    (hPQ : ∀ s ∈ P ++ Q, ValidSeg s = true) :
    path_relative (mkAbs P) (mkAbs (P ++ Q)) = joinSegs Q := by
  unfold path_relative
  rw [absSegsOf_mkAbs P hP, absSegsOf_mkAbs (P ++ Q) hPQ,
    dropCommon_self_append]
  simp

theorem join_public_eval (P : List String) (rel : String)
    (hP : ∀ s ∈ P, ValidSeg s = true)
    (hrel : ∀ s ∈ pathSegs rel, ValidSeg s = true) :
    path_join [mkAbs P, "./" ++ rel] = mkAbs (P ++ pathSegs rel) := by
  have hne2 : ("./" ++ rel) ≠ "" := by
    intro h
    have := congrArg String.data h
    rw [data_of_append] at this
    exact absurd this (by simp [show ("./" : String).data = ['.', '/'] from rfl])
  rw [path_join_abs_parts (mkAbs P) ["./" ++ rel] (isAbsPath_mkAbs P)
      (by simpa using hne2),
    pathSegs_mkAbs P hP]
  rw [show ((["./" ++ rel]).map pathSegs).flatten = pathSegs ("./" ++ rel) by simp,
    pathSegs_dotslash rel]
  have h1 : keepSeg "" = false := by simp [keepSeg]
  have h2 : keepSeg "." = false := by simp [keepSeg]
  by_cases hP0 : P = []
  · subst hP0
    rw [if_pos rfl]
    rw [show ("" :: [""]) ++ ("." :: pathSegs rel)
        = "" :: ("" :: ("." :: pathSegs rel)) by simp]
    rw [normSegs_mixed ("" :: ("" :: ("." :: pathSegs rel))) (by
      intro s hs
      rcases List.mem_cons.mp hs with hs | hs
      · exact Or.inl hs
      · rcases List.mem_cons.mp hs with hs | hs
        · exact Or.inl hs
        · rcases List.mem_cons.mp hs with hs | hs
          · exact Or.inr (Or.inl hs)
          · exact Or.inr (Or.inr (hrel s hs)))]
    rw [List.filter_cons, h1]
    simp only [Bool.false_eq_true, if_false]
    rw [List.filter_cons, h1]
    simp only [Bool.false_eq_true, if_false]
    rw [List.filter_cons, h2]
    simp only [Bool.false_eq_true, if_false]
    rw [filter_keep_of_valid (pathSegs rel) hrel]
    simp
  · rw [if_neg hP0]
    rw [show ("" :: P) ++ ("." :: pathSegs rel)
        = "" :: (P ++ ("." :: pathSegs rel)) by simp]
    rw [normSegs_mixed ("" :: (P ++ ("." :: pathSegs rel))) (by
      intro s hs
      rcases List.mem_cons.mp hs with hs | hs
      · exact Or.inl hs
      · rcases List.mem_append.mp hs with hs | hs
        · exact Or.inr (Or.inr (hP s hs))
        · rcases List.mem_cons.mp hs with hs | hs
          · exact Or.inr (Or.inl hs)
          · exact Or.inr (Or.inr (hrel s hs)))]
    rw [List.filter_cons, h1]
    simp only [Bool.false_eq_true, if_false, List.filter_append]
    rw [filter_keep_of_valid P hP, List.filter_cons, h2]
    simp only [Bool.false_eq_true, if_false]
    rw [filter_keep_of_valid (pathSegs rel) hrel]

/-! ## The resolver's probe paths -/

theorem find_js_eq (fsys : FileSystem) (fp dest : String) :
    find_compiled_js_file fsys fp dest =
      (if existsSync fsys (js_probe_path fp dest) = true
       then some ("./" ++ path_relative (path_join [dest, ".."]) (js_probe_path fp dest))
       else none) := by
  unfold find_compiled_js_file js_probe_path
  by_cases h : existsSync fsys
      (path_join [dest, path_dirname fp, path_basename fp (path_extname fp) ++ ".js"]) = true
  · simp [h]
  · rw [Bool.not_eq_true] at h
    simp [h]

theorem find_dts_eq (fsys : FileSystem) (fp dest : String) :
    find_compiled_types_file fsys fp dest =
      (if existsSync fsys (dts_probe_path fp dest) = true
       then some ("./" ++ path_relative (path_join [dest, ".."]) (dts_probe_path fp dest))
       else none) := by
  unfold find_compiled_types_file dts_probe_path
  by_cases h : existsSync fsys
      (path_join [dest, path_dirname fp, path_basename fp (path_extname fp) ++ ".d.ts"]) = true
  · simp [h]
  · rw [Bool.not_eq_true] at h
    simp [h]

theorem path_dirname_eval (S : List String)
    (hS : ∀ s ∈ S, '/' ∉ s.data) (hSne : S ≠ []) :
    path_dirname (joinSegs S) =
      (if S.dropLast = [] then "." else joinSegs S.dropLast) := by
  unfold path_dirname
  rw [pathSegs_joinSegs S hS hSne]
  cases hdl : S.dropLast with
  | nil => simp
  | cons a l => simp

theorem lastSegOf_joinSegs (S : List String)
    (hS : ∀ s ∈ S, '/' ∉ s.data) (hSne : S ≠ []) :
    lastSegOf (joinSegs S) = S.getLastD "" := by
  unfold lastSegOf
  rw [pathSegs_joinSegs S hS hSne]

theorem getLastD_mem (S : List String) (hSne : S ≠ []) : S.getLastD "" ∈ S := by
  obtain ⟨S', t, hE⟩ := (List.eq_nil_or_concat S).resolve_left hSne
  rw [List.concat_eq_append] at hE
  subst hE
  rw [List.getLastD_concat]
  simp

theorem path_basename_no_slash (fp ext : String)
    (h : '/' ∉ (lastSegOf fp).data) : '/' ∉ (path_basename fp ext).data := by
  unfold path_basename
  show '/' ∉ (if lastSegOf fp ≠ ext ∧ ext.data <:+ (lastSegOf fp).data
      then String.mk ((lastSegOf fp).data.take ((lastSegOf fp).data.length - ext.data.length))
      else lastSegOf fp).data
  split
  · intro hm
    exact h (List.take_subset _ _ hm)
  · exact h

theorem ValidSeg_of_append_ext (a e : String) (ha : '/' ∉ a.data)
    (he : '/' ∉ e.data) (hlen : 3 ≤ e.data.length) :
    ValidSeg (a ++ e) = true := by
  rw [ValidSeg_iff]
  have hdata : (a ++ e).data = a.data ++ e.data := data_of_append a e
  refine ⟨?_, ?_, ?_, ?_⟩
  · intro h0
    have hl := congrArg (fun s : String => s.data.length) h0
    simp only [hdata, List.length_append] at hl
    rw [show (("" : String)).data.length = 0 from rfl] at hl
    omega
  · intro h0
    have hl := congrArg (fun s : String => s.data.length) h0
    simp only [hdata, List.length_append] at hl
    rw [show (("." : String)).data.length = 1 from rfl] at hl
    omega
  · intro h0
    have hl := congrArg (fun s : String => s.data.length) h0
    simp only [hdata, List.length_append] at hl
    rw [show ((".." : String)).data.length = 2 from rfl] at hl
    omega
  · rw [hdata]
    intro hm
    rcases List.mem_append.mp hm with hm | hm
    · exact ha hm
    · exact he hm

theorem probe3_eval (D S : List String) (e : String)
    (hD : ValidSegs D = true) (hDne : D ≠ [])
    (hS : ValidSegs S = true) (hSne : S ≠ [])
    (he : '/' ∉ e.data) (hlen : 3 ≤ e.data.length) :
    path_join [mkAbs D, path_dirname (joinSegs S),
        path_basename (joinSegs S) (path_extname (joinSegs S)) ++ e]
      = mkAbs (D ++ (S.dropLast ++
          [path_basename (joinSegs S) (path_extname (joinSegs S)) ++ e])) := by
  have hD' := (ValidSegs_iff D).mp hD
  have hS' := (ValidSegs_iff S).mp hS
  have hSns : ∀ s ∈ S, '/' ∉ s.data := fun s hs => ValidSeg_no_slash (hS' s hs)
  have hlast : '/' ∉ (lastSegOf (joinSegs S)).data := by
    rw [lastSegOf_joinSegs S hSns hSne]
    exact ValidSeg_no_slash (hS' _ (getLastD_mem S hSne))
  have hb : '/' ∉ (path_basename (joinSegs S) (path_extname (joinSegs S))).data :=
    path_basename_no_slash _ _ hlast
  have hnm : ValidSeg
      (path_basename (joinSegs S) (path_extname (joinSegs S)) ++ e) = true :=
    ValidSeg_of_append_ext _ e hb he hlen
  rw [path_dirname_eval S hSns hSne]
  by_cases hdl : S.dropLast = []
  · rw [if_pos hdl, join3_dot D _ hD' hDne hnm, hdl]
    simp
  · rw [if_neg hdl,
      join3_dir D S.dropLast _ hD' hDne
        (fun s hs => hS' s (List.Sublist.subset (List.dropLast_sublist S) hs)) hdl hnm]
    simp [List.append_assoc]

theorem public_roundtrip (D R : List String) (nm : String)
    (hD : ValidSegs D = true) (hDne : D ≠ [])
    (hR : ValidSegs R = true) (hnm : ValidSeg nm = true) :
    path_join [path_join [mkAbs D, ".."],
      "./" ++ path_relative (path_join [mkAbs D, ".."]) (mkAbs (D ++ (R ++ [nm])))]
      = mkAbs (D ++ (R ++ [nm])) := by
  have hD' := (ValidSegs_iff D).mp hD
  have hR' := (ValidSegs_iff R).mp hR
  obtain ⟨D', t, hE⟩ := (List.eq_nil_or_concat D).resolve_left hDne
  rw [List.concat_eq_append] at hE
  subst hE
  have hDl : (D' ++ [t]).dropLast = D' := by simp
  have hD'' : ∀ s ∈ D', ValidSeg s = true :=
    fun s hs => hD' s (List.mem_append_left _ hs)
  have ht : ValidSeg t = true := hD' t (by simp)
  have hQ : ∀ s ∈ t :: (R ++ [nm]), ValidSeg s = true := by
    intro s hs
    rcases List.mem_cons.mp hs with hs | hs
    · exact hs ▸ ht
    · rcases List.mem_append.mp hs with hs | hs
      · exact hR' s hs
      · exact (List.mem_singleton.mp hs) ▸ hnm
  have hlist : (D' ++ [t]) ++ (R ++ [nm]) = D' ++ (t :: (R ++ [nm])) := by
    simp
  rw [parent_eval (D' ++ [t]) hD' (by simp), hDl, hlist,
    path_relative_eval D' (t :: (R ++ [nm])) hD'' (by
      intro s hs
      rcases List.mem_append.mp hs with hs | hs
      · exact hD'' s hs
      · exact hQ s hs)]
  rw [join_public_eval D' (joinSegs (t :: (R ++ [nm]))) hD'' (by
    rw [pathSegs_joinSegs (t :: (R ++ [nm]))
      (fun s hs => ValidSeg_no_slash (hQ s hs)) (by simp)]
    exact hQ)]
  rw [pathSegs_joinSegs (t :: (R ++ [nm]))
    (fun s hs => ValidSeg_no_slash (hQ s hs)) (by simp)]

theorem basename_ext_valid (S : List String) (e : String)
    (hS : ValidSegs S = true) (hSne : S ≠ [])
    (he : '/' ∉ e.data) (hlen : 3 ≤ e.data.length) :
    ValidSeg (path_basename (joinSegs S) (path_extname (joinSegs S)) ++ e) = true := by
  have hS' := (ValidSegs_iff S).mp hS
  have hSns : ∀ s ∈ S, '/' ∉ s.data := fun s hs => ValidSeg_no_slash (hS' s hs)
  have hlast : '/' ∉ (lastSegOf (joinSegs S)).data := by
    rw [lastSegOf_joinSegs S hSns hSne]
    exact ValidSeg_no_slash (hS' _ (getLastD_mem S hSne))
  exact ValidSeg_of_append_ext _ e (path_basename_no_slash _ _ hlast) he hlen

theorem dropLast_valid (S : List String) (hS : ValidSegs S = true) :
    ValidSegs S.dropLast = true := by
  rw [ValidSegs_iff] at hS ⊢
  exact fun s hs => hS s (List.Sublist.subset (List.dropLast_sublist S) hs)

theorem public_of_target (fsys : FileSystem) (D S : List String) (e : String)
    (hD : ValidSegs D = true) (hDne : D ≠ [])
    (hS : ValidSegs S = true) (hSne : S ≠ [])
    (he : '/' ∉ e.data) (hlen : 3 ≤ e.data.length)
    (hex : existsSync fsys (path_join [mkAbs D, path_dirname (joinSegs S),
        path_basename (joinSegs S) (path_extname (joinSegs S)) ++ e]) = true) :
    probe_public fsys (mkAbs D)
      ("./" ++ path_relative (path_join [mkAbs D, ".."])
        (path_join [mkAbs D, path_dirname (joinSegs S),
          path_basename (joinSegs S) (path_extname (joinSegs S)) ++ e])) = true := by
  rw [probe3_eval D S e hD hDne hS hSne he hlen] at hex ⊢
  unfold probe_public
  rw [public_roundtrip D S.dropLast _ hD hDne (dropLast_valid S hS)
    (basename_ext_valid S e hS hSne he hlen)]
  exact hex

theorem find_js_probe_ok (fsys : FileSystem) (D : List String) (fp : String)
    (hD : ValidSegs D = true) (hDne : D ≠ [])
    (hfp : ValidSegs (pathSegs fp) = true) (p : String)
    (hfind : find_compiled_js_file fsys fp (mkAbs D) = some p) :
    probe_public fsys (mkAbs D) p = true := by
  have hSne : pathSegs fp ≠ [] := pathSegs_ne_nil fp
  have hback : joinSegs (pathSegs fp) = fp := joinSegs_pathSegs fp
  rw [find_js_eq] at hfind
  by_cases hex : existsSync fsys (js_probe_path fp (mkAbs D)) = true
  · rw [if_pos hex] at hfind
    rw [← Option.some.inj hfind]
    unfold js_probe_path at hex ⊢
    rw [← hback] at hex ⊢
    exact public_of_target fsys D (pathSegs fp) ".js" hD hDne hfp hSne
      (by decide) (by decide) hex
  · rw [if_neg hex] at hfind
    cases hfind

theorem find_dts_probe_ok (fsys : FileSystem) (D : List String) (fp : String)
    (hD : ValidSegs D = true) (hDne : D ≠ [])
    (hfp : ValidSegs (pathSegs fp) = true) (p : String)
    (hfind : find_compiled_types_file fsys fp (mkAbs D) = some p) :
    probe_public fsys (mkAbs D) p = true := by
  have hSne : pathSegs fp ≠ [] := pathSegs_ne_nil fp
  have hback : joinSegs (pathSegs fp) = fp := joinSegs_pathSegs fp
  rw [find_dts_eq] at hfind
  by_cases hex : existsSync fsys (dts_probe_path fp (mkAbs D)) = true
  · rw [if_pos hex] at hfind
    rw [← Option.some.inj hfind]
    unfold dts_probe_path at hex ⊢
    rw [← hback] at hex ⊢
    exact public_of_target fsys D (pathSegs fp) ".d.ts" hD hDne hfp hSne
      (by decide) (by decide) hex
  · rw [if_neg hex] at hfind
    cases hfind

theorem css_style_probe_ok (fsys : FileSystem) (D : List String) (c : String)
    (hD : ValidSegs D = true) (hDne : D ≠ [])
    (hc : ValidSegs (pathSegs c) = true)
    (hex : existsSync fsys (path_join [mkAbs D, c]) = true) :
    probe_public fsys (mkAbs D)
      ("./" ++ path_relative (path_join [mkAbs D, ".."]) (path_join [mkAbs D, c]))
      = true := by
  have hD' := (ValidSegs_iff D).mp hD
  have hc' := (ValidSegs_iff (pathSegs c)).mp hc
  have hCne : pathSegs c ≠ [] := pathSegs_ne_nil c
  obtain ⟨C', t, hE⟩ := (List.eq_nil_or_concat (pathSegs c)).resolve_left hCne
  rw [List.concat_eq_append] at hE
  have htarget : path_join [mkAbs D, c] = mkAbs (D ++ (C' ++ [t])) := by
    rw [target_eval D c hD' hDne hc', hE]
  rw [htarget] at hex ⊢
  unfold probe_public
  rw [public_roundtrip D C' t hD hDne
    (by
      rw [ValidSegs_iff]
      intro s hs
      exact hc' s (hE ▸ List.mem_append_left _ hs))
    (hc' t (hE ▸ (by simp)))]
  exact hex

/-! ## Round-trip checking of the produced map -/

theorem round_trip_check_iff (fsys : FileSystem) (dest : String) (m : ExportMap) :
    round_trip_check fsys dest m = true ↔ MapOK fsys dest m := by
  simp [round_trip_check, MapOK, EntryOK, List.all_eq_true]

theorem MapOK_objSet {fsys : FileSystem} {dest : String} {m : ExportMap}
    {k : String} {v : ExportEntry}
    (h : MapOK fsys dest m) (he : EntryOK fsys dest v) :
    MapOK fsys dest (objSet m k v) := by
  unfold objSet
  split
  · intro kv hkv
    rcases List.mem_map.mp hkv with ⟨kv0, hkv0, heq⟩
    by_cases hk : kv0.1 == k
    · rw [if_pos hk] at heq
      rw [← heq]
      exact he
    · rw [if_neg hk] at heq
      rw [← heq]
      exact h kv0 hkv0
  · intro kv hkv
    rcases List.mem_append.mp hkv with hkv | hkv
    · exact h kv hkv
    · rw [List.mem_singleton.mp hkv]
      exact he

theorem objGet_mem {m : ExportMap} {k : String} {e : ExportEntry}
    (h : objGet m k = some e) : ∃ kv ∈ m, kv.2 = e := by
  unfold objGet at h
  cases hfind : m.find? (fun kv => kv.1 == k) with
  | none => rw [hfind] at h; cases h
  | some kv =>
    rw [hfind] at h
    exact ⟨kv, List.mem_of_find?_eq_some hfind, Option.some.inj h⟩

theorem process_ts_fields (fsys : FileSystem) (fp dest : String)
    (r : String × ExportEntry)
    (h : process_typescript_file fsys fp dest = some r) :
    r.1 = generate_export_path fp ∧
    r.2 = { types := find_compiled_types_file fsys fp dest,
            imp := find_compiled_js_file fsys fp dest,
            style := none } := by
  unfold process_typescript_file at h
  by_cases hc : should_export_file (find_compiled_js_file fsys fp dest).isSome
      (find_compiled_types_file fsys fp dest).isSome fp = true
  · simp only [hc, Bool.not_true, Bool.false_eq_true, if_false] at h
    have heq := Option.some.inj h
    exact ⟨(congrArg Prod.fst heq).symm, (congrArg Prod.snd heq).symm⟩
  · rw [Bool.not_eq_true] at hc
    simp only [hc, Bool.not_false, if_true] at h
    cases h

theorem process_css_fields (cp dest : String) (r : String × ExportEntry)
    (h : process_css_file cp dest = some r) :
    r.1 = "./" ++ cp ∧
    r.2 = { types := none, imp := none,
            style := some ("./" ++
              path_relative (path_join [dest, ".."]) (path_join [dest, cp])) } := by
  unfold process_css_file at h
  have heq := Option.some.inj h
  constructor
  · have h1 : r.1 = (if (cp == "index.css") = true then "./index.css" else "./" ++ cp) :=
      (congrArg Prod.fst heq).symm
    rw [h1]
    by_cases hc : (cp == "index.css") = true
    · rw [if_pos hc]
      have hc' : cp = "index.css" := by simpa using hc
      rw [hc']
      decide
    · rw [if_neg hc]
  · exact (congrArg Prod.snd heq).symm

theorem ts_fold_step_eq (fsys : FileSystem) (dest : String)
    (ex : ExportMap) (fp : String) :
    ts_fold_step fsys dest ex fp =
      (if (endsW fp ".ts" || endsW fp ".tsx") = true then
        (match process_typescript_file fsys fp dest with
         | some r => objSet ex r.1 r.2
         | none => ex)
       else ex) := rfl

theorem css_fold_step_eq (dest : String) (ex : ExportMap) (cp : String) :
    css_fold_step dest ex cp =
      (match process_css_file cp dest with
       | some r =>
         (match objGet ex (strip_css_suffix r.1) with
          | some existing =>
            objSet ex (strip_css_suffix r.1) { existing with style := r.2.style }
          | none => objSet ex r.1 r.2)
       | none => ex) := rfl

theorem ts_fold_inv (fsys : FileSystem) (D : List String)
    (hD : ValidSegs D = true) (hDne : D ≠ [])
    (mods : List String)
    (hmods : ∀ fp ∈ mods, ValidSegs (pathSegs fp) = true)
    (m : ExportMap) (hm : MapOK fsys (mkAbs D) m) :
    MapOK fsys (mkAbs D) (mods.foldl (ts_fold_step fsys (mkAbs D)) m) := by
  induction mods generalizing m with
  | nil => exact hm
  | cons fp mods ih =>
    rw [List.foldl_cons]
    refine ih (fun q hq => hmods q (List.mem_cons_of_mem _ hq)) _ ?_
    rw [ts_fold_step_eq]
    by_cases hts : (endsW fp ".ts" || endsW fp ".tsx") = true
    · rw [if_pos hts]
      cases hpr : process_typescript_file fsys fp (mkAbs D) with
      | none => exact hm
      | some r =>
        obtain ⟨_, hr2⟩ := process_ts_fields fsys fp (mkAbs D) r hpr
        refine MapOK_objSet hm ?_
        intro p hp
        rw [hr2] at hp
        unfold entry_paths at hp
        rcases List.mem_append.mp hp with hp | hp
        · rcases List.mem_append.mp hp with hp | hp
          · rw [Option.mem_toList, Option.mem_def] at hp
            exact find_js_probe_ok fsys D fp hD hDne (hmods fp (by simp)) p hp
          · rw [Option.mem_toList, Option.mem_def] at hp
            exact find_dts_probe_ok fsys D fp hD hDne (hmods fp (by simp)) p hp
        · simp at hp
    · rw [if_neg hts]
      exact hm

theorem css_fold_inv (fsys : FileSystem) (D : List String)
    (hD : ValidSegs D = true) (hDne : D ≠ [])
    (csss : List String)
    (hcss : ∀ c ∈ csss, ValidSegs (pathSegs c) = true ∧
      existsSync fsys (path_join [mkAbs D, c]) = true)
    (m : ExportMap) (hm : MapOK fsys (mkAbs D) m) :
    MapOK fsys (mkAbs D) (csss.foldl (css_fold_step (mkAbs D)) m) := by
  induction csss generalizing m with
  | nil => exact hm
  | cons c csss ih =>
    rw [List.foldl_cons]
    refine ih (fun q hq => hcss q (List.mem_cons_of_mem _ hq)) _ ?_
    rw [css_fold_step_eq]
    cases hpr : process_css_file c (mkAbs D) with
    | none => exact hm
    | some r =>
      show MapOK fsys (mkAbs D)
        (match objGet m (strip_css_suffix r.1) with
         | some existing =>
           objSet m (strip_css_suffix r.1) { existing with style := r.2.style }
         | none => objSet m r.1 r.2)
      obtain ⟨hr1, hr2⟩ := process_css_fields c (mkAbs D) r hpr
      have hsp : probe_public fsys (mkAbs D)
          ("./" ++ path_relative (path_join [mkAbs D, ".."])
            (path_join [mkAbs D, c])) = true :=
        css_style_probe_ok fsys D c hD hDne (hcss c (by simp)).1
          (hcss c (by simp)).2
      cases hg : objGet m (strip_css_suffix r.1) with
      | some existing =>
        refine MapOK_objSet hm ?_
        intro p hp
        unfold entry_paths at hp
        simp only [hr2] at hp
        rcases List.mem_append.mp hp with hp | hp
        · obtain ⟨kv, hkv, hkve⟩ := objGet_mem hg
          have hok := hm kv hkv
          refine hok p ?_
          unfold entry_paths
          rw [hkve]
          exact List.mem_append_left _ hp
        · rw [Option.mem_toList, Option.mem_def] at hp
          rw [← Option.some.inj hp]
          exact hsp
      | none =>
        refine MapOK_objSet hm ?_
        intro p hp
        unfold entry_paths at hp
        rw [hr2] at hp
        simp only [Option.toList_none, List.nil_append] at hp
        rw [Option.mem_toList, Option.mem_def] at hp
        rw [← Option.some.inj hp]
        exact hsp

/-! ## Further helper lemmas for the claims -/

theorem css_export_path_eq (cp : String) :
    (if (cp == "index.css") = true then "./index.css" else "./" ++ cp)
      = "./" ++ cp := by
  by_cases hc : (cp == "index.css") = true
  · rw [if_pos hc, show cp = "index.css" by simpa using hc]
    decide
  · rw [if_neg hc]

theorem suffix_take_append {l t : List Char} (h : t <:+ l) :
    l.take (l.length - t.length) ++ t = l := by
  obtain ⟨u, rfl⟩ := h
  simp

theorem endsW_prepend (a s t : String) (h : endsW s t = true) :
    endsW (a ++ s) t = true := by
  unfold endsW at h ⊢
  rw [decide_eq_true_iff] at h ⊢
  obtain ⟨u, hu⟩ := h
  exact ⟨a.data ++ u, by rw [data_of_append, ← hu, List.append_assoc]⟩

theorem strip_css_append (x : String) (hx : endsW x ".css" = true) :
    (strip_css_suffix x).data ++ (".css" : String).data = x.data := by
  unfold strip_css_suffix
  rw [if_pos hx]
  have hsuf : (".css" : String).data <:+ x.data := by
    unfold endsW at hx
    exact of_decide_eq_true hx
  show x.data.take (x.data.length - 4) ++ _ = x.data
  rw [show (4 : Nat) = (".css" : String).data.length from rfl]
  exact suffix_take_append hsuf

theorem strip_css_inj (s1 s2 : String) (h1 : endsW s1 ".css" = true)
    (h2 : endsW s2 ".css" = true) (hne : s1 ≠ s2) :
    strip_css_suffix ("./" ++ s1) ≠ strip_css_suffix ("./" ++ s2) := by
  intro heq
  have hx1 := endsW_prepend "./" s1 ".css" h1
  have hx2 := endsW_prepend "./" s2 ".css" h2
  have hdata : ("./" ++ s1).data = ("./" ++ s2).data := by
    rw [← strip_css_append ("./" ++ s1) hx1, ← strip_css_append ("./" ++ s2) hx2,
      congrArg String.data heq]
  rw [data_of_append, data_of_append] at hdata
  exact hne (String.ext (List.append_cancel_left hdata))

theorem prepend_dotslash_inj (s1 s2 : String)
    (h : ("./" ++ s1 : String) = "./" ++ s2) : s1 = s2 := by
  have hdata := congrArg String.data h
  rw [data_of_append, data_of_append] at hdata
  exact String.ext (List.append_cancel_left hdata)

theorem find?_map_set_ne (m : List (String × ExportEntry)) (k k' : String)
    (v : ExportEntry) (hne : k' ≠ k) :
    (m.map (fun kv => if kv.1 == k then (k, v) else kv)).find?
        (fun kv => kv.1 == k')
      = m.find? (fun kv => kv.1 == k') := by
  have hkk : (k == k') = false := by
    simp [show k ≠ k' from fun h => hne h.symm]
  induction m with
  | nil => rfl
  | cons kv0 m ih =>
    simp only [List.map_cons]
    by_cases hk : (kv0.1 == k) = true
    · rw [if_pos hk]
      have hkv0 : kv0.1 = k := by simpa using hk
      have hp0 : (kv0.1 == k') = false := by rw [hkv0]; exact hkk
      simp only [List.find?, hkk, hp0]
      exact ih
    · rw [if_neg hk]
      by_cases hp : (kv0.1 == k') = true
      · simp only [List.find?, hp]
      · have hp' : (kv0.1 == k') = false := by simpa using hp
        simp only [List.find?, hp']
        exact ih

theorem objGet_objSet_ne (m : ExportMap) (k k' : String) (v : ExportEntry)
    (hne : k' ≠ k) : objGet (objSet m k v) k' = objGet m k' := by
  have hkk : (k == k') = false := by
    simp [show k ≠ k' from fun h => hne h.symm]
  unfold objGet objSet
  by_cases hany : m.any (fun kv => kv.1 == k) = true
  · rw [if_pos hany, find?_map_set_ne m k k' v hne]
  · rw [if_neg hany, List.find?_append]
    have hsingle : ([(k, v)].find? (fun kv => kv.1 == k')) = none := by
      simp only [List.find?, hkk]
    rw [hsingle]
    cases m.find? (fun kv => kv.1 == k') <;> rfl

theorem objGet_objSet_self (m : ExportMap) (k : String) (v : ExportEntry) :
    objGet (objSet m k v) k = some v := by
  unfold objGet objSet
  by_cases hany : m.any (fun kv => kv.1 == k) = true
  · rw [if_pos hany]
    induction m with
    | nil => cases hany
    | cons kv0 m ih =>
      simp only [List.map_cons]
      by_cases hk : (kv0.1 == k) = true
      · rw [if_pos hk]
        rw [List.find?_cons_of_pos _ (by simp)]
      · rw [if_neg hk]
        rw [List.find?_cons_of_neg _ (by simpa using hk)]
        apply ih
        simp only [List.any_cons, hk, Bool.false_or] at hany
        exact hany
  · rw [if_neg hany]
    have hnone : m.find? (fun kv => kv.1 == k) = none := by
      rw [List.find?_eq_none]
      intro kv hkv hp
      exact hany (List.any_eq_true.mpr ⟨kv, hkv, hp⟩)
    rw [List.find?_append, hnone]
    simp [List.find?]

/-! ## Claim theorems -/

/-- C1: for every module path handed to the synthesizer, if neither
artifact is found the module contributes no entry; an index module is
published iff at least one artifact exists (in particular with only the
type-declaration artifact); a regular module is published iff the runtime
artifact exists, so a regular module with only a type-declaration
artifact yields no entry. -/
theorem c1_eligibility (fsys : FileSystem) (fp dest : String) :
    (find_compiled_js_file fsys fp dest = none ∧
       find_compiled_types_file fsys fp dest = none →
       process_typescript_file fsys fp dest = none) ∧
    (is_index_file fp = true →
       ((process_typescript_file fsys fp dest).isSome = true ↔
         ((find_compiled_js_file fsys fp dest).isSome = true ∨
          (find_compiled_types_file fsys fp dest).isSome = true))) ∧
    (is_index_file fp = false →
       ((process_typescript_file fsys fp dest).isSome = true ↔
         (find_compiled_js_file fsys fp dest).isSome = true)) := by
  have hps : (process_typescript_file fsys fp dest).isSome
      = should_export_file (find_compiled_js_file fsys fp dest).isSome
          (find_compiled_types_file fsys fp dest).isSome fp := by
    unfold process_typescript_file
    by_cases hc : should_export_file (find_compiled_js_file fsys fp dest).isSome
        (find_compiled_types_file fsys fp dest).isSome fp = true
    · simp [hc]
    · rw [Bool.not_eq_true] at hc
      simp [hc]
  refine ⟨?_, ?_, ?_⟩
  · rintro ⟨hj, ht⟩
    unfold process_typescript_file
    rw [hj, ht]
    simp [should_export_file]
  · intro hidx
    rw [hps]
    unfold should_export_file
    cases hji : (find_compiled_js_file fsys fp dest).isSome <;>
      cases hti : (find_compiled_types_file fsys fp dest).isSome <;>
        simp [hidx]
  · intro hidx
    rw [hps]
    unfold should_export_file
    cases hji : (find_compiled_js_file fsys fp dest).isSome <;>
      cases hti : (find_compiled_types_file fsys fp dest).isSome <;>
        simp [hidx]

/-- C2: for every module path, the source's classification
(`is_index_file`, `generate_export_path`) agrees with the spec's Path
Classifier: subpath `"."` exactly for `index.ts` / `index.tsx` (both
extensions treated alike), `"./" + directory` for a path ending in
`/index.<ext>`, and `"./" + directory + "/" + base-without-extension`
otherwise, with root-level regular files collapsing to `"./name"`;
`is_index` holds exactly in the first two cases. -/
theorem c2_path_classification (fp : String) :
    is_index_file fp = (classify_spec fp).1 ∧
    generate_export_path fp = (classify_spec fp).2 := by
  unfold is_index_file classify_spec generate_export_path
  by_cases h1 : (fp == "index.ts" || fp == "index.tsx") = true
  · simp [h1]
  · rw [Bool.not_eq_true] at h1
    by_cases h2 : (endsW fp "/index.ts" || endsW fp "/index.tsx") = true
    · simp [h1, h2]
    · rw [Bool.not_eq_true] at h2
      simp [h1, h2]

/-- C3: every style path gets public subpath `"./" + style_path` (the
`.css` extension kept, also for `index.css`); one css step merges the
style field into an existing entry at the subpath minus `.css`,
preserving that entry's `import` and `types` fields and overwriting its
`style`, and otherwise writes a standalone entry carrying only `style`;
style paths are processed after all module paths, in input order. -/
theorem c3_style_handling (fsys : FileSystem) (dest : String)
    (ex : ExportMap) (cp : String) :
    (∀ r, process_css_file cp dest = some r →
       r.1 = "./" ++ cp ∧ r.2.imp = none ∧ r.2.types = none ∧
       r.2.style = some ("./" ++ path_relative (path_join [dest, ".."])
         (path_join [dest, cp]))) ∧
    (css_fold_step dest ex cp =
      (match objGet ex (strip_css_suffix ("./" ++ cp)) with
       | some existing =>
         objSet ex (strip_css_suffix ("./" ++ cp))
           { types := existing.types, imp := existing.imp,
             style := some ("./" ++ path_relative (path_join [dest, ".."])
               (path_join [dest, cp])) }
       | none =>
         objSet ex ("./" ++ cp)
           { types := none, imp := none,
             style := some ("./" ++ path_relative (path_join [dest, ".."])
               (path_join [dest, cp])) })) ∧
    (∀ (mods cs1 cs2 : List String),
      generate_exports_object fsys mods (cs1 ++ cs2) dest =
        cs2.foldl (css_fold_step dest) (generate_exports_object fsys mods cs1 dest)) := by
  refine ⟨?_, ?_, ?_⟩
  · intro r hr
    obtain ⟨hr1, hr2⟩ := process_css_fields cp dest r hr
    exact ⟨hr1, by rw [hr2], by rw [hr2], by rw [hr2]⟩
  · rw [css_fold_step_eq]
    cases hpr : process_css_file cp dest with
    | none =>
      unfold process_css_file at hpr
      cases hpr
    | some r =>
      obtain ⟨hr1, hr2⟩ := process_css_fields cp dest r hpr
      show (match objGet ex (strip_css_suffix r.1) with
        | some existing =>
          objSet ex (strip_css_suffix r.1) { existing with style := r.2.style }
        | none => objSet ex r.1 r.2) = _
      rw [hr1, hr2]
  · intro mods cs1 cs2
    unfold generate_exports_object
    rw [List.foldl_append]

/-- C4: each artifact kind is probed independently at the module's
mirrored directory under the output root for the extension-free base
name; when the probe finds the file the returned path is `"./"` plus the
path relative to the parent of the output root, otherwise the field is
absent; a resolver outcome can be both artifacts, only the runtime one,
only the type one, or neither. -/
theorem c4_resolver (fsys : FileSystem) (fp dest : String) :
    (find_compiled_js_file fsys fp dest =
      (if existsSync fsys (js_probe_path fp dest) = true
       then some ("./" ++ path_relative (path_join [dest, ".."]) (js_probe_path fp dest))
       else none)) ∧
    (find_compiled_types_file fsys fp dest =
      (if existsSync fsys (dts_probe_path fp dest) = true
       then some ("./" ++ path_relative (path_join [dest, ".."]) (dts_probe_path fp dest))
       else none)) ∧
    (∀ fsys2 : FileSystem,
      existsSync fsys2 (js_probe_path fp dest) = existsSync fsys (js_probe_path fp dest) →
      find_compiled_js_file fsys2 fp dest = find_compiled_js_file fsys fp dest) ∧
    (∀ fsys2 : FileSystem,
      existsSync fsys2 (dts_probe_path fp dest) = existsSync fsys (dts_probe_path fp dest) →
      find_compiled_types_file fsys2 fp dest = find_compiled_types_file fsys fp dest) ∧
    (find_compiled_js_file fsBoth "a.ts" "/pkg/dist" = some "./dist/a.js" ∧
     find_compiled_types_file fsBoth "a.ts" "/pkg/dist" = some "./dist/a.d.ts") ∧
    (find_compiled_js_file fsJsOnly "a.ts" "/pkg/dist" = some "./dist/a.js" ∧
     find_compiled_types_file fsJsOnly "a.ts" "/pkg/dist" = none) ∧
    (find_compiled_js_file fsDtsOnly "a.ts" "/pkg/dist" = none ∧
     find_compiled_types_file fsDtsOnly "a.ts" "/pkg/dist" = some "./dist/a.d.ts") ∧
    (find_compiled_js_file fsNone "a.ts" "/pkg/dist" = none ∧
     find_compiled_types_file fsNone "a.ts" "/pkg/dist" = none) := by
  refine ⟨find_js_eq fsys fp dest, find_dts_eq fsys fp dest, ?_, ?_,
    by decide, by decide, by decide, by decide⟩
  · intro fsys2 h
    rw [find_js_eq fsys2 fp dest, find_js_eq fsys fp dest, h]
  · intro fsys2 h
    rw [find_dts_eq fsys2 fp dest, find_dts_eq fsys fp dest, h]

/-- C5 counterexample: the css pass records a style path without probing
the file system, so a synthesis run over a style path with no file on
disk produces a map whose recorded style path fails the existence
probe. -/
theorem c5_counterexample :
    round_trip_check fsNone (mkAbs ["pkg", "dist"])
      (generate_exports_object fsNone [] ["missing.css"] (mkAbs ["pkg", "dist"]))
      = false := by decide

/-- C5 (amended): for a well-formed absolute output root and well-formed
relative input paths, every path recorded in the produced map (import,
types and style fields alike) passes the existence probe, provided each
input style path does exist under the output root (which the enumerating
caller guarantees by construction, globbing the output tree). -/
theorem c5_roundtrip (fsys : FileSystem) (D : List String)
    (mods csss : List String)
    (hD : ValidSegs D = true) (hDne : D ≠ [])
    (hmods : ∀ fp ∈ mods, ValidSegs (pathSegs fp) = true)
    (hcss : ∀ c ∈ csss, ValidSegs (pathSegs c) = true ∧
      existsSync fsys (path_join [mkAbs D, c]) = true) :
    round_trip_check fsys (mkAbs D)
      (generate_exports_object fsys mods csss (mkAbs D)) = true := by
  rw [round_trip_check_iff]
  unfold generate_exports_object
  exact css_fold_inv fsys D hD hDne csss hcss _
    (ts_fold_inv fsys D hD hDne mods hmods []
      (fun kv hkv => absurd hkv (List.not_mem_nil kv)))

/-- C5 witness: a concrete run (root index with both artifacts plus one
existing stylesheet) for which the amended round-trip holds. -/
theorem c5_roundtrip_witness :
    round_trip_check fsDemo (mkAbs ["pkg", "dist"])
      (generate_exports_object fsDemo ["index.ts"] ["style.css"]
        (mkAbs ["pkg", "dist"])) = true :=
  c5_roundtrip fsDemo ["pkg", "dist"] ["index.ts"] ["style.css"]
    (by decide) (by decide) (by decide) (by decide)

/-- C6 counterexample: with the distinct stylesheet paths `a.css` and
`a.css.css` (both `.css`-suffixed), the second path's merge target —
its key minus `.css` — is exactly the first path's standalone key
`./a.css`, and the synthesis run overwrites the first stylesheet's
recorded style `./dist/a.css` with `./dist/a.css.css`: a stylesheet's
style field is overwritten by another stylesheet. -/
theorem c6_counterexample :
    strip_css_suffix ("./" ++ "a.css.css") = "./" ++ "a.css" ∧
    generate_exports_object fsNone [] ["a.css"] "/pkg/dist"
      = [("./a.css",
          { types := none, imp := none, style := some "./dist/a.css" })] ∧
    generate_exports_object fsNone [] ["a.css", "a.css.css"] "/pkg/dist"
      = [("./a.css",
          { types := none, imp := none, style := some "./dist/a.css.css" })] := by
  decide

/-- C6 (amended): for distinct stylesheet (`.css`-suffixed) paths the
merge targets obtained by stripping `.css` are distinct, so two
stylesheets never merge into the same entry through the base-subpath
rule; and the step for a later stylesheet leaves both keys the earlier
stylesheet can occupy (its merge target and its standalone key)
untouched, provided neither path's merge target is the other path's
standalone key — that is, neither style path equals the other with an
extra `.css` suffix, the case the counterexample exhibits. -/
theorem c6_no_style_collision (dest s1 s2 k : String) (m : ExportMap)
    (h1 : endsW s1 ".css" = true) (h2 : endsW s2 ".css" = true)
    (hne : s1 ≠ s2)
    (hk : k = strip_css_suffix ("./" ++ s1) ∨ k = "./" ++ s1)
    (hx1 : strip_css_suffix ("./" ++ s2) ≠ "./" ++ s1)
    (hx2 : strip_css_suffix ("./" ++ s1) ≠ "./" ++ s2) :
    strip_css_suffix ("./" ++ s1) ≠ strip_css_suffix ("./" ++ s2) ∧
    objGet (css_fold_step dest m s2) k = objGet m k := by
  have hinj := strip_css_inj s1 s2 h1 h2 hne
  refine ⟨hinj, ?_⟩
  rw [css_fold_step_eq]
  cases hpr : process_css_file s2 dest with
  | none =>
    unfold process_css_file at hpr
    cases hpr
  | some r =>
    obtain ⟨hr1, _⟩ := process_css_fields s2 dest r hpr
    show objGet (match objGet m (strip_css_suffix r.1) with
      | some existing =>
        objSet m (strip_css_suffix r.1) { existing with style := r.2.style }
      | none => objSet m r.1 r.2) k = objGet m k
    cases hg : objGet m (strip_css_suffix r.1) with
    | some existing =>
      refine objGet_objSet_ne m (strip_css_suffix r.1) k _ ?_
      rw [hr1]
      rcases hk with hk | hk
      · exact hk ▸ hinj
      · exact hk ▸ fun h => hx1 h.symm
    | none =>
      refine objGet_objSet_ne m r.1 k r.2 ?_
      rw [hr1]
      rcases hk with hk | hk
      · exact hk ▸ hx2
      · exact hk ▸ fun h => hne (prepend_dotslash_inj s1 s2 h)

/-- C6 witness: for the distinct stylesheet paths `a.css` and `b.css`
the merge targets differ, and the `b.css` step leaves the entry that
`a.css` wrote at its standalone key `./a.css` unchanged. -/
theorem c6_no_style_collision_witness :
    strip_css_suffix ("./" ++ "a.css") ≠ strip_css_suffix ("./" ++ "b.css") ∧
    objGet (css_fold_step "/pkg/dist"
        [("./a.css", { types := none, imp := none, style := some "./dist/a.css" })]
        "b.css") ("./" ++ "a.css")
      = objGet
          [("./a.css", { types := none, imp := none, style := some "./dist/a.css" })]
          ("./" ++ "a.css") :=
  c6_no_style_collision "/pkg/dist" "a.css" "b.css" ("./" ++ "a.css")
    [("./a.css", { types := none, imp := none, style := some "./dist/a.css" })]
    (by decide) (by decide) (by decide) (Or.inr rfl) (by decide) (by decide)

/-- C7 counterexample: a file-system check that fails (permission denied
everywhere, `fsAllFail`) is not propagated: `fs.existsSync` collapses it
to `false`, and the resolver returns exactly what it returns when the
artifact is absent — `none` — so no distinct internal error kind exists
or reaches the caller. -/
theorem c7_counterexample :
    existsSync fsAllFail "/pkg/dist/a.js" = false ∧
    find_compiled_js_file fsAllFail "a.ts" "/pkg/dist"
      = find_compiled_js_file fsNone "a.ts" "/pkg/dist" ∧
    find_compiled_js_file fsAllFail "a.ts" "/pkg/dist" = none ∧
    find_compiled_types_file fsAllFail "a.ts" "/pkg/dist" = none := by decide

/-- C7 (amended): the synthesis recognizes no internal error kind: a
file-system existence check that fails for any reason is swallowed by
`fs.existsSync` as `false` and is therefore interpreted as the artifact
being absent; only the ordinary not-exists case and this collapsed
failure case exist, and neither propagates to the caller. -/
theorem c7_failure_is_absence (fsys : FileSystem) (fp dest : String) :
    (∀ p, fsys p = FsOutcome.failed → existsSync fsys p = false) ∧
    (fsys (js_probe_path fp dest) = FsOutcome.failed →
      find_compiled_js_file fsys fp dest = none) ∧
    (fsys (dts_probe_path fp dest) = FsOutcome.failed →
      find_compiled_types_file fsys fp dest = none) := by
  have hex : ∀ p, fsys p = FsOutcome.failed → existsSync fsys p = false := by
    intro p hp
    unfold existsSync
    rw [hp]
  refine ⟨hex, ?_, ?_⟩
  · intro h
    rw [find_js_eq, hex _ h]
    simp
  · intro h
    rw [find_dts_eq, hex _ h]
    simp

/-- C8: the synthesis is deterministic: two invocations with identical
module and style lists against file systems that agree pointwise produce
identical maps — the same association list, hence the same keys in the
same insertion order (the fields of an entry are fixed by the record
type in the order the code writes them). -/
theorem c8_determinism (fs1 fs2 : FileSystem) (mods csss : List String)
    (dest : String) (h : ∀ p, fs1 p = fs2 p) :
    generate_exports_object fs1 mods csss dest
      = generate_exports_object fs2 mods csss dest := by
  rw [funext h]

/-- C8 witness: two syntactically different but pointwise equal file
systems give identical maps on a concrete input. -/
theorem c8_determinism_witness :
    generate_exports_object fsNone ["index.ts"] ["style.css"] "/pkg/dist"
      = generate_exports_object fsNone2 ["index.ts"] ["style.css"] "/pkg/dist" :=
  c8_determinism fsNone fsNone2 ["index.ts"] ["style.css"] "/pkg/dist"
    (fun p => by simp [fsNone, fsNone2])

/-- C9: the synthesizer processes a module path only when it ends in
`.ts` or `.tsx`; any other path (e.g. `.js`) contributes nothing even
when its artifacts exist; and since `.d.ts` paths end in `.ts`, a
declaration file passes the gate and is processed with a base name that
keeps the `.d` segment. -/
theorem c9_extension_gate (fsys : FileSystem) (dest : String)
    (ex : ExportMap) (fp : String) :
    (endsW fp ".ts" = false → endsW fp ".tsx" = false →
      ts_fold_step fsys dest ex fp = ex) ∧
    endsW "a.js" ".ts" = false ∧
    generate_exports_object fsJsOnly ["a.js"] [] "/pkg/dist" = [] ∧
    endsW "utils/helper.d.ts" ".ts" = true ∧
    js_probe_path "utils/helper.d.ts" "/pkg/dist" = "/pkg/dist/utils/helper.d.js" ∧
    generate_exports_object fsDtsHelper ["utils/helper.d.ts"] [] "/pkg/dist" =
      [("./utils/helper.d",
        { types := none, imp := some "./dist/utils/helper.d.js", style := none })] := by
  refine ⟨?_, by decide, by decide, by decide, by decide, by decide⟩
  · intro h1 h2
    rw [ts_fold_step_eq, h1, h2]
    simp

/-- C10: when a later module path classifies to the same public subpath
as an earlier one, the later entry wholly replaces the earlier one — the
map at that key is exactly the later process result, with no merging of
`import`/`types` across module paths (concretely, `a.ts` with both
artifacts followed by `a/index.ts` with only types leaves no trace of
the earlier `import`). -/
theorem c10_duplicate_replacement (fsys : FileSystem) (dest : String)
    (ex : ExportMap) (fp : String) :
    (∀ r, (endsW fp ".ts" || endsW fp ".tsx") = true →
      process_typescript_file fsys fp dest = some r →
      objGet (ts_fold_step fsys dest ex fp) r.1 = some r.2) ∧
    generate_exports_object fsReplaceDemo ["a.ts", "a/index.ts"] [] "/pkg/dist" =
      [("./a", { types := some "./dist/a/index.d.ts", imp := none, style := none })] := by
  refine ⟨?_, by decide⟩
  · intro r hts hpr
    rw [ts_fold_step_eq, if_pos hts, hpr]
    exact objGet_objSet_self ex r.1 r.2

/-- C10 witness: in the concrete duplicate-subpath run the step writes
exactly the later entry at the shared key. -/
theorem c10_duplicate_replacement_witness :
    objGet (ts_fold_step fsReplaceDemo "/pkg/dist"
        [("./a", { types := some "./dist/a.d.ts", imp := some "./dist/a.js",
                   style := none })] "a/index.ts") "./a"
      = some { types := some "./dist/a/index.d.ts", imp := none, style := none } := by
  have h := (c10_duplicate_replacement fsReplaceDemo "/pkg/dist"
    [("./a", { types := some "./dist/a.d.ts", imp := some "./dist/a.js",
               style := none })] "a/index.ts").1
    ("./a", { types := some "./dist/a/index.d.ts", imp := none, style := none })
    (by decide) (by decide)
  exact h

end Xportify
